import Mathlib

/-
Verification of the chunking/merging and span-resolution/rendering core of
`src/main.py` (a GLiNER-based named-entity-recognition demo).

The embedding below models:
  * `process_long_text(model, text, entity_types, chunk_size, overlap)`
    (src/main.py lines 24-67): chunking a long text into overlapping windows,
    calling the external model once per window, and merging the per-window
    entity lists with a (text, label) duplicate check for windows after the
    first.  The external `model.predict_entities` call is an oracle parameter
    `model : List Char → List String → List Entity`.  The embedding also
    returns the list of (window text, labels) arguments passed to the oracle,
    in call order, so that "invokes the call exactly once" is statable.
    (The `offset = chunks[i-1].rfind(...)` computation at lines 46-48 is dead
    code in the source - `offset` is never read - and the `print` at line 41 is
    I/O only; neither affects the returned value, so they are not modelled.)
  * `highlight_entities_in_text(text, entities)` (src/main.py lines 70-147):
    style assignment from a fixed palette, occurrence discovery via
    `re.finditer(re.escape(entity_text), text)` (escaped pattern = literal,
    non-overlapping, left-to-right substring scan, zero-width matches advance
    by one - embedded as `findOccurrences`), bucketing by start offset,
    per-start longest-match selection, and emission of the rendered fragment
    sequence (the content of the `rich.Text` object: a list of
    (characters, optional style) fragments).  Python's `set` iteration order
    for the labels is unspecified; it is modelled as first-seen order, and the
    style theorems are stated for an arbitrary duplicate-free label order.
  * the grouping and counting of entities by label done in `process_example`
    (lines 172-175) and `main` (lines 238-241).

Texts are lists of characters; `text[a:b]` is `(text.drop a).take (b - a)`.
Python `while` loops are embedded with an explicit fuel argument bounded by
the text length; `chunkSpansAux_fuel_stable` certifies that the chosen fuel
is enough whenever `overlap < chunk_size` (the loop's termination condition).
-/

/-- An extracted entity: the model returns only a surface text and a label
(src/main.py data model; spec §3). -/
structure Entity where
  text : List Char
  label : String
  deriving DecidableEq

/-- The `(start, end)` window offsets produced by the chunking loop of
`process_long_text` (src/main.py lines 31-36), with fuel:
`start = 0`; while `start < n`: `e = min (start + cs) n`; emit `(start, e)`;
`start = e - ov` if `e < n` else stop. -/
def chunkSpansAux (n cs ov : Nat) : Nat → Nat → List (Nat × Nat)
  | 0, _ => []
  | fuel + 1, start =>
    if start < n then
      (start, min (start + cs) n) ::
        (if min (start + cs) n < n then
          chunkSpansAux n cs ov fuel (min (start + cs) n - ov)
        else [])
    else []

/-- The window offsets for a text of length `n`: the loop runs at most `n`
iterations because window starts strictly increase, so fuel `n + 1` is enough
(see `chunkSpansAux_fuel_stable`). -/
def chunkSpans (n cs ov : Nat) : List (Nat × Nat) :=
  chunkSpansAux n cs ov (n + 1) 0

/-- The chunk substrings `text[start:end]` of src/main.py line 35. -/
def chunkTexts (text : List Char) (cs ov : Nat) : List (List Char) :=
  (chunkSpans text.length cs ov).map (fun se => (text.drop se.1).take (se.2 - se.1))

/-- The duplicate test of src/main.py lines 53-60: some already-merged entity
has the same `text` and the same `label`. -/
def isDupOf (acc : List Entity) (e : Entity) : Bool :=
  acc.any fun p => p.text == e.text && p.label == e.label

/-- The merge loop for one window after the first (src/main.py lines 51-63):
append each entity unless it duplicates an already-accumulated one. -/
def dedupAppend : List Entity → List Entity → List Entity
  | acc, [] => acc
  | acc, e :: es =>
    if isDupOf acc e then dedupAppend acc es else dedupAppend (acc ++ [e]) es

/-- `process_long_text` (src/main.py lines 24-67).  Returns the merged entity
list together with the list of `(window text, labels)` arguments passed to the
external extraction call, in call order. -/
def process_long_text (model : List Char → List String → List Entity)
    (text : List Char) (entity_types : List String) (chunk_size ov : Nat) :
    List Entity × List (List Char × List String) :=
  if text.length ≤ chunk_size then
    (model text entity_types, [(text, entity_types)])
  else
    match chunkTexts text chunk_size ov with
    | [] => ([], [])
    | c0 :: rest =>
      (rest.foldl (fun acc c => dedupAppend acc (model c entity_types))
        (model c0 entity_types),
        (c0 :: rest).map fun c => (c, entity_types))

/-- Whether a list of entities contains two distinct positions holding the
same `(text, label)` pair. -/
def hasDupPair : List Entity → Bool
  | [] => false
  | e :: es => isDupOf es e || hasDupPair es

/-- Character-list version of "is a leading segment of". -/
def isPrefList : List Char → List Char → Bool
  | [], _ => true
  | _ :: _, [] => false
  | a :: as, b :: bs => a == b && isPrefList as bs

/-- The scan performed by `re.finditer(re.escape(entity_text), text)`
(src/main.py line 108): left-to-right, matching the escaped pattern literally
at each position; after a match of length `L > 0` the scan resumes at the
match end (non-overlapping), after a zero-width match it advances by one. -/
def findOccAux (text pat : List Char) : Nat → Nat → List (Nat × Nat)
  | 0, _ => []
  | fuel + 1, i =>
    if i ≤ text.length then
      if isPrefList pat (text.drop i) then
        (i, i + pat.length) ::
          findOccAux text pat fuel (if pat.length = 0 then i + 1 else i + pat.length)
      else findOccAux text pat fuel (i + 1)
    else []

/-- All `(start, end)` spans of literal, non-overlapping occurrences of `pat`
in `text`, leftmost first. -/
def findOccurrences (text pat : List Char) : List (Nat × Nat) :=
  findOccAux text pat (text.length + 1) 0

/-- The flat content of the `positions` defaultdict of src/main.py lines
100-110, in insertion order: one `(start, end, entity)` triple per discovered
occurrence, entity-major. -/
def buildPositions : List Char → List Entity → List (Nat × Nat × Entity)
  | _, [] => []
  | text, e :: rest =>
    (findOccurrences text e.text).map (fun se => (se.1, se.2, e))
      ++ buildPositions text rest

/-- Insert a key into a strictly sorted list of keys, keeping it strictly
sorted and duplicate-free. -/
def insertKey (x : Nat) : List Nat → List Nat
  | [] => [x]
  | y :: ys =>
    if x < y then x :: y :: ys
    else if x = y then y :: ys
    else y :: insertKey x ys

/-- `sorted(positions.keys())` of src/main.py line 117: the distinct start
offsets present in the flat position list, in ascending order. -/
def sortedKeys (flat : List (Nat × Nat × Entity)) : List Nat :=
  flat.foldl (fun acc p => insertKey p.1 acc) []

/-- `positions[start]` of src/main.py line 123: the `(end, entity)` pairs
recorded at a given start offset, in insertion order. -/
def bucketAt (flat : List (Nat × Nat × Entity)) (s : Nat) : List (Nat × Entity) :=
  (flat.filter fun p => p.1 == s).map fun p => p.2

/-- `sorted(positions[start], key=end, reverse=True)[0]` of src/main.py lines
123-124: the first entry with maximal end offset (Python's sort is stable, so
among equal ends the first-inserted wins). -/
def maxBucket : List (Nat × Entity) → Option (Nat × Entity)
  | [] => none
  | b :: bs => some (bs.foldl (fun best p => if best.1 < p.1 then p else best) b)

/-- The end offset of the occurrence kept at start `s` (a helper for stating
the disjointness hypothesis; defaults to `s` on an empty bucket). -/
def spanEnd (flat : List (Nat × Nat × Entity)) (s : Nat) : Nat :=
  match maxBucket (bucketAt flat s) with
  | some p => p.1
  | none => s

/-- The fixed style palette of src/main.py lines 73-85. -/
def styles : List String :=
  ["bold red", "bold blue", "bold green", "bold yellow", "bold magenta",
    "bold cyan", "bold purple", "bold white on red", "bold white on blue",
    "bold white on green", "bold white on magenta"]

/-- `styles[k % len(styles)]` (src/main.py line 97). -/
def styleAt (k : Nat) : String := styles.getD (k % styles.length) "bold"

/-- The style-assignment loop of src/main.py lines 95-97, started at index
`k`: the j-th label of the iteration order receives `styles[(k+j) % len]`. -/
def entityStylesFrom : Nat → List String → List (String × String)
  | _, [] => []
  | k, l :: rest => (l, styleAt k) :: entityStylesFrom (k + 1) rest

/-- The `entity_styles` mapping built from a label iteration order. -/
def entityStyles (labelOrder : List String) : List (String × String) :=
  entityStylesFrom 0 labelOrder

/-- The distinct labels of the entity list.  Python's
`set(entity["label"] for entity in entities)` iterates in unspecified order;
modelled as first-seen order. -/
def distinctLabels (entities : List Entity) : List String :=
  entities.foldl (fun acc e => if e.label ∈ acc then acc else acc ++ [e.label]) []

/-- `entity_styles.get(entity_type, "bold")` (src/main.py line 127). -/
def styleOf : List (String × String) → String → String
  | [], _ => "bold"
  | (l, s) :: rest, k => if k = l then s else styleOf rest k

/-- The fragment-emission loop of src/main.py lines 117-130, walking the
sorted start offsets with the running `last_end`.  Each fragment is a pair of
the emitted characters and an optional style (`none` = unannotated).  Returns
the fragments together with the final `last_end`.  Note the loop visits every
start offset - there is no skip for offsets already passed by `last_end`. -/
def renderAux (text : List Char) (flat : List (Nat × Nat × Entity))
    (estyles : List (String × String)) :
    List Nat → Nat → List (List Char × Option String) × Nat
  | [], lastEnd => ([], lastEnd)
  | s :: rest, lastEnd =>
    let gap : List (List Char × Option String) :=
      if lastEnd < s then [((text.drop lastEnd).take (s - lastEnd), none)] else []
    match maxBucket (bucketAt flat s) with
    | none =>
      let r := renderAux text flat estyles rest lastEnd
      (gap ++ r.1, r.2)
    | some p =>
      let r := renderAux text flat estyles rest p.1
      (gap ++ ((text.drop s).take (p.1 - s), some (styleOf estyles p.2.label)) :: r.1,
        r.2)

/-- `highlight_entities_in_text` (src/main.py lines 70-147), reduced to the
data it renders: the fragment sequence appended to the `rich.Text` object,
including the trailing unannotated text of lines 133-134. -/
def highlight_entities_in_text (text : List Char) (entities : List Entity) :
    List (List Char × Option String) :=
  let estyles := entityStyles (distinctLabels entities)
  let flat := buildPositions text entities
  let r := renderAux text flat estyles (sortedKeys flat) 0
  r.1 ++ (if r.2 < text.length then [(text.drop r.2, none)] else [])

/-- The characters of the rendered fragments, in order. -/
def renderedText (frags : List (List Char × Option String)) : List Char :=
  frags.foldr (fun f acc => f.1 ++ acc) []

/-- The number of styled (annotated) fragments. -/
def countStyled (frags : List (List Char × Option String)) : Nat :=
  (frags.filter fun f => f.2.isSome).length

/-- The occurrences kept by overlap resolution: for each start offset in
ascending order, the span of the longest occurrence starting there. -/
def keptSpans (text : List Char) (entities : List Entity) : List (Nat × Nat) :=
  let flat := buildPositions text entities
  (sortedKeys flat).filterMap fun s =>
    (maxBucket (bucketAt flat s)).map fun p => (s, p.1)

/-- Whether `pat` appears literally somewhere in `text`. -/
def occursIn (pat text : List Char) : Bool :=
  (List.range (text.length + 1)).any fun s =>
    (text.drop s).take pat.length == pat

/-- Whether every character of the text is whitespace (an empty text counts). -/
def wsOnly (t : List Char) : Bool := t.all Char.isWhitespace

/-- One step of the `entities_by_type` defaultdict of src/main.py lines
173-175: append the entity's text to its label's list, creating the label's
entry at the end on first sight. -/
def addToGroup : List (String × List (List Char)) → Entity → List (String × List (List Char))
  | [], e => [(e.label, [e.text])]
  | (l, ts) :: rest, e =>
    if e.label = l then (l, ts ++ [e.text]) :: rest
    else (l, ts) :: addToGroup rest e

/-- The grouped-by-label summary of src/main.py lines 173-175. -/
def groupByLabel (entities : List Entity) : List (String × List (List Char)) :=
  entities.foldl addToGroup []

/-- Look a label up in the grouped summary (empty list when absent). -/
def groupsOf : List (String × List (List Char)) → String → List (List Char)
  | [], _ => []
  | (l, ts) :: rest, k => if k = l then ts else groupsOf rest k

/-- The per-label count of src/main.py lines 238-241: the number of entities
carrying the label. -/
def countLabel (entities : List Entity) (l : String) : Nat :=
  (entities.filter fun e => e.label == l).length

/-! ## Chunking lemmas -/

lemma chunkSpansAux_succ {n cs ov fuel start : Nat} (hs : start < n) :
    chunkSpansAux n cs ov (fuel + 1) start =
      (start, min (start + cs) n) ::
        (if min (start + cs) n < n then
          chunkSpansAux n cs ov fuel (min (start + cs) n - ov)
        else []) := by
  simp [chunkSpansAux, hs]

lemma chunkSpansAux_nil {n cs ov fuel start : Nat} (hs : ¬ start < n) :
    chunkSpansAux n cs ov fuel start = [] := by
  cases fuel <;> simp [chunkSpansAux, hs]

/-- Every window produced by the chunking loop is nonempty, ends within the
text, has length at most `chunk_size`, and starts at or after the loop's
current position. -/
lemma chunkSpansAux_mem {n cs ov : Nat} (hov : ov < cs) :
    ∀ fuel start, ∀ se ∈ chunkSpansAux n cs ov fuel start,
      start ≤ se.1 ∧ se.1 < se.2 ∧ se.2 ≤ n ∧ se.2 - se.1 ≤ cs := by
  intro fuel
  induction fuel with
  | zero => intro start se h; simp [chunkSpansAux] at h
  | succ fuel ih =>
    intro start se h
    by_cases hs : start < n
    · rw [chunkSpansAux_succ hs] at h
      rcases List.mem_cons.mp h with h | h
      · subst h
        refine ⟨Nat.le_refl _, ?_, Nat.min_le_right _ _, ?_⟩
        · exact lt_min (Nat.lt_add_of_pos_right (Nat.lt_of_le_of_lt (Nat.zero_le _) hov)) hs
        · exact Nat.le_trans (Nat.sub_le_sub_right (Nat.min_le_left _ _) _)
            (by omega)
      · by_cases he : min (start + cs) n < n
        · rw [if_pos he] at h
          have hmin : min (start + cs) n = start + cs := by omega
          have := ih (min (start + cs) n - ov) se h
          refine ⟨?_, this.2.1, this.2.2.1, this.2.2.2⟩
          have : min (start + cs) n - ov ≤ se.1 := this.1
          omega
        · rw [if_neg he] at h; simp at h
    · rw [chunkSpansAux_nil hs] at h; simp at h

/-- Consecutive windows: strictly increasing starts, each later window starts
exactly `overlap` before the previous window's end, and the shared region has
exactly `overlap` characters. -/
lemma chunkSpansAux_chain {n cs ov : Nat} (hov : ov < cs) :
    ∀ fuel start,
      List.Chain' (fun a b : Nat × Nat =>
        a.1 < b.1 ∧ b.1 = a.2 - ov ∧ b.1 + ov = a.2 ∧ a.2 < b.2 ∧
          min a.2 b.2 - max a.1 b.1 = ov)
        (chunkSpansAux n cs ov fuel start) := by
  intro fuel
  induction fuel with
  | zero => intro start; simp [chunkSpansAux]
  | succ fuel ih =>
    intro start
    by_cases hs : start < n
    · rw [chunkSpansAux_succ hs]
      by_cases he : min (start + cs) n < n
      · rw [if_pos he]
        have hmin : min (start + cs) n = start + cs := by omega
        have hnext : min (start + cs) n - ov < n := by omega
        rcases fuel with _ | fuel'
        · simp [chunkSpansAux]
        · have hrec := ih (min (start + cs) n - ov)
          rw [chunkSpansAux_succ hnext] at hrec
          rw [chunkSpansAux_succ hnext]
          refine List.chain'_cons.mpr ⟨?_, hrec⟩
          have h2 : min (min (start + cs) n - ov + cs) n ≤ n := Nat.min_le_right _ _
          have h3 : min (start + cs) n - ov <
              min (min (start + cs) n - ov + cs) n := by omega
          exact ⟨by omega, by omega, by omega, by omega, by omega⟩
      · rw [if_neg he]; simp
    · rw [chunkSpansAux_nil hs]; simp

/-- Fuel adequacy: one more unit of fuel changes nothing once the fuel covers
the distance from the current start to the end of the text (window starts
advance by at least one per iteration when `overlap < chunk_size`). -/
lemma chunkSpansAux_stable {n cs ov : Nat} (hov : ov < cs) :
    ∀ fuel start, n ≤ start + fuel →
      chunkSpansAux n cs ov (fuel + 1) start = chunkSpansAux n cs ov fuel start := by
  intro fuel
  induction fuel with
  | zero =>
    intro start h
    have : ¬ start < n := by omega
    rw [chunkSpansAux_nil this, chunkSpansAux_nil this]
  | succ fuel ih =>
    intro start h
    by_cases hs : start < n
    · rw [chunkSpansAux_succ hs, chunkSpansAux_succ hs]
      by_cases he : min (start + cs) n < n
      · rw [if_pos he, if_pos he, ih]
        omega
      · rw [if_neg he, if_neg he]
    · rw [chunkSpansAux_nil hs, chunkSpansAux_nil hs]

/-- The fuel `n + 1` used by `chunkSpans` is enough: any larger fuel produces
the same window list, so `chunkSpans` is the full run of the source loop. -/
lemma chunkSpans_fuel_ok {n cs ov : Nat} (hov : ov < cs) (k : Nat) :
    chunkSpansAux n cs ov (n + 1 + k) 0 = chunkSpans n cs ov := by
  induction k with
  | zero => rfl
  | succ k ih =>
    have : n + 1 + (k + 1) = (n + 1 + k) + 1 := by omega
    rw [this, chunkSpansAux_stable hov (n + 1 + k) 0 (by omega), ih]

/-- C4: for `len(text) > maxLen` and `maxLen > overlap ≥ 0`, the chunking
loop's windows start at 0 with length `maxLen`, have strictly increasing
start offsets, each window after the first starts at
`previous_window_end - overlap`, every window's length is at most `maxLen`
(and it lies inside the text), and consecutive windows share exactly
`overlap` characters. -/
theorem C4_chunk_windows (n cs ov : Nat) (hov : ov < cs) (hn : cs < n) :
    (chunkSpans n cs ov).head? = some (0, cs) ∧
    (∀ se ∈ chunkSpans n cs ov, se.1 < se.2 ∧ se.2 ≤ n ∧ se.2 - se.1 ≤ cs) ∧
    List.Chain' (fun a b : Nat × Nat =>
      a.1 < b.1 ∧ b.1 = a.2 - ov ∧ b.1 + ov = a.2 ∧ a.2 < b.2 ∧
        min a.2 b.2 - max a.1 b.1 = ov)
      (chunkSpans n cs ov) := by
  refine ⟨?_, ?_, chunkSpansAux_chain hov _ _⟩
  · have h0 : (0 : Nat) < n := by omega
    have hmin : min (0 + cs) n = cs := by omega
    rw [chunkSpans, chunkSpansAux_succ h0, hmin]
    rfl
  · intro se h
    have := chunkSpansAux_mem hov (n + 1) 0 se h
    exact ⟨this.2.1, this.2.2.1, this.2.2.2⟩

/-- Witness for C4 at `n = 5`, `cs = 2`, `ov = 1`. -/
theorem C4_chunk_windows_witness :
    1 < 2 ∧ 2 < 5 ∧ (chunkSpans 5 2 1).head? = some (0, 2) :=
  ⟨by decide, by decide, (C4_chunk_windows 5 2 1 (by decide) (by decide)).1⟩

/-! ## Merging / deduplication lemmas -/

lemma isDupOf_eq_true_iff (acc : List Entity) (e : Entity) :
    isDupOf acc e = true ↔ e ∈ acc := by
  simp only [isDupOf, List.any_eq_true, Bool.and_eq_true, beq_iff_eq]
  constructor
  · rintro ⟨p, hp, ht, hl⟩
    cases p; cases e
    simp only at ht hl
    subst ht; subst hl
    exact hp
  · intro h
    exact ⟨e, h, rfl, rfl⟩

lemma hasDupPair_eq_false_iff (l : List Entity) :
    hasDupPair l = false ↔ l.Nodup := by
  induction l with
  | nil => simp [hasDupPair]
  | cons e es ih =>
    have hd : isDupOf es e = false ↔ e ∉ es := by
      rw [← isDupOf_eq_true_iff]
      cases isDupOf es e <;> simp
    rw [hasDupPair, Bool.or_eq_false_iff, hd, ih, List.nodup_cons]

lemma dedupAppend_nodup : ∀ (es acc : List Entity), acc.Nodup →
    (dedupAppend acc es).Nodup := by
  intro es
  induction es with
  | nil => intro acc h; exact h
  | cons e es ih =>
    intro acc h
    rw [dedupAppend]
    by_cases hdup : isDupOf acc e = true
    · rw [if_pos hdup]; exact ih acc h
    · rw [if_neg hdup]
      refine ih _ ?_
      have he : e ∉ acc := fun hm => hdup ((isDupOf_eq_true_iff acc e).mpr hm)
      rw [List.nodup_append]
      exact ⟨h, List.nodup_singleton e,
        fun a ha hb => by simp only [List.mem_singleton] at hb; subst hb; exact he ha⟩

lemma foldl_dedup_nodup (model : List Char → List String → List Entity)
    (labels : List String) :
    ∀ (chunks : List (List Char)) (acc : List Entity), acc.Nodup →
      (chunks.foldl (fun acc c => dedupAppend acc (model c labels)) acc).Nodup := by
  intro chunks
  induction chunks with
  | nil => intro acc h; exact h
  | cons c cs ih =>
    intro acc h
    exact ih _ (dedupAppend_nodup (model c labels) acc h)

/-- C1 counterexample: with `chunk_size = 2`, `overlap = 1`, text `"abc"`
(so the chunked path runs, windows `"ab"` and `"bc"`), a first-window model
output containing the pair `("x", "L")` twice survives merging: the merged
list contains two entities with an identical `(text, label)` pair, because
the first window's entities are appended without any duplicate check
(src/main.py line 65). -/
theorem C1_counterexample :
    hasDupPair (process_long_text
      (fun c _ => if c == "ab".data then
        [⟨"x".data, "L"⟩, ⟨"x".data, "L"⟩] else [])
      "abc".data ["L"] 2 1).1 = true := by
  decide

/-- C1 (amended): for a text longer than `chunk_size`, if the first window's
model output contains no two entities with an identical `(text, label)` pair,
then the merged entity list contains no two entities with an identical
`(text, label)` pair (entities of every window after the first are checked
against the accumulated list before being appended). -/
theorem C1_merged_nodup (model : List Char → List String → List Entity)
    (text : List Char) (labels : List String) (cs ov : Nat)
    (hlong : cs < text.length)
    (hfirst : hasDupPair (model ((chunkTexts text cs ov).headD []) labels) = false) :
    hasDupPair (process_long_text model text labels cs ov).1 = false := by
  have hnle : ¬ text.length ≤ cs := by omega
  rw [hasDupPair_eq_false_iff] at hfirst ⊢
  simp only [process_long_text, if_neg hnle]
  rcases hct : chunkTexts text cs ov with _ | ⟨c0, rest⟩
  · exact List.nodup_nil
  · rw [hct, List.headD_cons] at hfirst
    exact foldl_dedup_nodup model labels rest (model c0 labels) hfirst

/-- Witness for C1 (amended): duplicate-free first-window output over the
chunked path yields a duplicate-free merged list. -/
theorem C1_merged_nodup_witness :
    2 < ("abc".data).length ∧
    hasDupPair (process_long_text (fun _ _ => [⟨"x".data, "L"⟩])
      "abc".data ["L"] 2 1).1 = false :=
  ⟨by decide, C1_merged_nodup (fun _ _ => [⟨"x".data, "L"⟩]) "abc".data ["L"] 2 1
    (by decide) (by decide)⟩

/-- C3: for `len(text) ≤ chunk_size`, `process_long_text` invokes the
external extraction call exactly once - with the full text and the given
label set - and returns that call's result unchanged. -/
theorem C3_pass_through (model : List Char → List String → List Entity)
    (text : List Char) (labels : List String) (cs ov : Nat)
    (h : text.length ≤ cs) :
    process_long_text model text labels cs ov = (model text labels, [(text, labels)]) := by
  simp [process_long_text, h]

/-- Witness for C3 at text `"ab"`, `chunk_size = 2`. -/
theorem C3_pass_through_witness :
    ("ab".data).length ≤ 2 ∧
    process_long_text (fun t _ => [⟨t, "L"⟩]) "ab".data ["L"] 2 1 =
      ([⟨"ab".data, "L"⟩], [("ab".data, ["L"])]) :=
  ⟨by decide, C3_pass_through (fun t _ => [⟨t, "L"⟩]) "ab".data ["L"] 2 1 (by decide)⟩

/-! ## Occurrence-discovery lemmas -/

lemma isPrefList_iff : ∀ (p s : List Char),
    isPrefList p s = true ↔ s.take p.length = p ∧ p.length ≤ s.length := by
  intro p
  induction p with
  | nil => intro s; simp [isPrefList]
  | cons a as ih =>
    intro s
    cases s with
    | nil => simp [isPrefList]
    | cons b bs =>
      simp only [isPrefList, Bool.and_eq_true, beq_iff_eq, ih bs, List.length_cons,
        List.take_succ_cons, List.cons.injEq, Nat.add_le_add_iff_right]
      constructor
      · rintro ⟨hab, h1, h2⟩
        exact ⟨⟨hab.symm, h1⟩, h2⟩
      · rintro ⟨⟨hba, h1⟩, h2⟩
        exact ⟨hba.symm, h1, h2⟩

/-- Every span the scan records is a literal occurrence: it starts at or
after the scan position, its end is start + pattern length, it lies inside
the text, and the text slice there equals the pattern. -/
lemma findOccAux_sound (text pat : List Char) :
    ∀ fuel i, ∀ se ∈ findOccAux text pat fuel i,
      i ≤ se.1 ∧ se.2 = se.1 + pat.length ∧ se.1 + pat.length ≤ text.length ∧
        (text.drop se.1).take pat.length = pat := by
  intro fuel
  induction fuel with
  | zero => intro i se h; simp [findOccAux] at h
  | succ fuel ih =>
    intro i se h
    rw [findOccAux] at h
    by_cases hi : i ≤ text.length
    · rw [if_pos hi] at h
      by_cases hp : isPrefList pat (text.drop i) = true
      · rw [if_pos hp] at h
        rcases List.mem_cons.mp h with h | h
        · subst h
          have hiff := (isPrefList_iff pat (text.drop i)).mp hp
          refine ⟨Nat.le_refl _, rfl, ?_, hiff.1⟩
          have hlen : pat.length ≤ (text.drop i).length := hiff.2
          rw [List.length_drop] at hlen
          omega
        · have := ih _ se h
          have hnext : i ≤ (if pat.length = 0 then i + 1 else i + pat.length) := by
            split <;> omega
          exact ⟨Nat.le_trans hnext this.1, this.2⟩
      · rw [if_neg hp] at h
        have := ih _ se h
        exact ⟨by omega, this.2⟩
    · rw [if_neg hi] at h; simp at h

/-- For a nonempty pattern, recorded spans are non-overlapping and in
left-to-right order: each span ends at or before the next begins. -/
lemma findOccAux_chain (text pat : List Char) (hpat : pat ≠ []) :
    ∀ fuel i, List.Chain' (fun a b : Nat × Nat => a.2 ≤ b.1)
      (findOccAux text pat fuel i) := by
  intro fuel
  induction fuel with
  | zero => intro i; simp [findOccAux]
  | succ fuel ih =>
    intro i
    rw [findOccAux]
    by_cases hi : i ≤ text.length
    · rw [if_pos hi]
      by_cases hp : isPrefList pat (text.drop i) = true
      · rw [if_pos hp]
        have hlen : ¬ pat.length = 0 := by
          intro h; exact hpat (List.eq_nil_of_length_eq_zero h)
        rw [if_neg hlen]
        refine List.chain'_cons'.mpr ⟨?_, ih _⟩
        intro b hb
        have hbmem := List.mem_of_mem_head? hb
        exact (findOccAux_sound text pat fuel (i + pat.length) b hbmem).1
      · rw [if_neg hp]; exact ih _
    · rw [if_neg hi]; simp

/-- For a nonempty pattern, no literal occurrence is missed: every position
where the pattern occurs is covered by some recorded span. -/
lemma findOccAux_complete (text pat : List Char) (hpat : pat ≠ []) :
    ∀ fuel i p, i ≤ p → p + pat.length ≤ text.length →
      (text.drop p).take pat.length = pat →
      text.length + 1 ≤ fuel + i →
      ∃ se ∈ findOccAux text pat fuel i, se.1 ≤ p ∧ p < se.2 := by
  intro fuel
  induction fuel with
  | zero =>
    intro i p hip hplen _ hfuel
    exfalso
    have : 0 < pat.length := List.length_pos.mpr hpat
    omega
  | succ fuel ih =>
    intro i p hip hplen hpeq hfuel
    have hpl : 0 < pat.length := List.length_pos.mpr hpat
    have hi : i ≤ text.length := by omega
    rw [findOccAux, if_pos hi]
    by_cases hp : isPrefList pat (text.drop i) = true
    · have hlen0 : ¬ pat.length = 0 := by omega
      rw [if_pos hp, if_neg hlen0]
      by_cases hple : p < i + pat.length
      · exact ⟨(i, i + pat.length), List.mem_cons_self _ _, hip, hple⟩
      · have hge : i + pat.length ≤ p := by omega
        obtain ⟨se, hmem, h1, h2⟩ := ih (i + pat.length) p hge hplen hpeq (by omega)
        exact ⟨se, List.mem_cons_of_mem _ hmem, h1, h2⟩
    · rw [if_neg hp]
      have hne : p ≠ i := by
        intro h
        subst h
        apply hp
        rw [isPrefList_iff]
        refine ⟨hpeq, ?_⟩
        rw [List.length_drop]
        omega
      exact ih (i + 1) p (by omega) hplen hpeq (by omega)

/-- C6: occurrence discovery records exactly the literal, non-overlapping
occurrences of the entity's text: every recorded span is a literal match of
the pattern inside the text (soundness - in particular, characters of the
pattern have no pattern-language meaning), recorded spans are pairwise
non-overlapping in left-to-right order, and every position where the pattern
literally occurs is covered by a recorded span (completeness). -/
theorem C6_literal_occurrences (text pat : List Char) (hpat : pat ≠ []) :
    (∀ se ∈ findOccurrences text pat,
      se.2 = se.1 + pat.length ∧ se.1 + pat.length ≤ text.length ∧
        (text.drop se.1).take pat.length = pat) ∧
    List.Chain' (fun a b : Nat × Nat => a.2 ≤ b.1) (findOccurrences text pat) ∧
    (∀ p, p + pat.length ≤ text.length → (text.drop p).take pat.length = pat →
      ∃ se ∈ findOccurrences text pat, se.1 ≤ p ∧ p < se.2) := by
  refine ⟨?_, findOccAux_chain text pat hpat _ _, ?_⟩
  · intro se h
    exact (findOccAux_sound text pat _ _ se h).2
  · intro p h1 h2
    exact findOccAux_complete text pat hpat (text.length + 1) 0 p (Nat.zero_le _) h1 h2
      (by omega)

/-- Witness for C6: the recorded span `(0, 2)` of `"ab"` in `"abab"` is a
literal occurrence (the pattern `"ab"` is nonempty). -/
theorem C6_literal_occurrences_witness :
    (0, 2).2 = (0, 2).1 + ("ab".data).length ∧
    (0, 2).1 + ("ab".data).length ≤ ("abab".data).length ∧
    (("abab".data).drop (0, 2).1).take ("ab".data).length = "ab".data :=
  (C6_literal_occurrences "abab".data "ab".data (by decide)).1 (0, 2) (by decide)

/-! ## Absent-entity lemmas (C7) -/

lemma findOccurrences_eq_nil (text pat : List Char)
    (h : occursIn pat text = false) : findOccurrences text pat = [] := by
  rcases hx : findOccurrences text pat with _ | ⟨se, rest⟩
  · rfl
  · exfalso
    have hmem : se ∈ findOccurrences text pat := by
      rw [hx]; exact List.mem_cons_self _ _
    have hs := findOccAux_sound text pat _ _ se hmem
    have htrue : occursIn pat text = true := by
      rw [occursIn, List.any_eq_true]
      refine ⟨se.1, ?_, ?_⟩
      · rw [List.mem_range]; omega
      · rw [beq_iff_eq]; exact hs.2.2.2
    rw [h] at htrue
    simp at htrue

lemma mem_buildPositions (text : List Char) :
    ∀ (entities : List Entity) (a b : Nat) (c : Entity),
      (a, b, c) ∈ buildPositions text entities ↔
        c ∈ entities ∧ (a, b) ∈ findOccurrences text c.text := by
  intro entities
  induction entities with
  | nil => simp [buildPositions]
  | cons e rest ih =>
    intro a b c
    rw [buildPositions, List.mem_append, List.mem_map]
    constructor
    · rintro (⟨se, hse, heq⟩ | h)
      · simp only [Prod.mk.injEq] at heq
        obtain ⟨h1, h2, h3⟩ := heq
        subst h1; subst h2; subst h3
        exact ⟨List.mem_cons_self _ _, by simpa using hse⟩
      · have := (ih a b c).mp h
        exact ⟨List.mem_cons_of_mem _ this.1, this.2⟩
    · rintro ⟨hc, hocc⟩
      rcases List.mem_cons.mp hc with h | h
      · subst h
        left
        exact ⟨(a, b), hocc, by simp⟩
      · right
        exact (ih a b c).mpr ⟨h, hocc⟩

lemma mem_groupsOf_addToGroup_self :
    ∀ (acc : List (String × List (List Char))) (e : Entity),
      e.text ∈ groupsOf (addToGroup acc e) e.label := by
  intro acc
  induction acc with
  | nil => intro e; simp [addToGroup, groupsOf]
  | cons p rest ih =>
    intro e
    rcases p with ⟨l, ts⟩
    rw [addToGroup]
    by_cases hl : e.label = l
    · rw [if_pos hl, groupsOf, if_pos hl]
      simp
    · rw [if_neg hl, groupsOf, if_neg hl]
      exact ih e

lemma groupsOf_addToGroup_mono :
    ∀ (acc : List (String × List (List Char))) (f : Entity) (x : List Char) (l : String),
      x ∈ groupsOf acc l → x ∈ groupsOf (addToGroup acc f) l := by
  intro acc
  induction acc with
  | nil => intro f x l h; simp [groupsOf] at h
  | cons p rest ih =>
    intro f x l h
    rcases p with ⟨l0, ts⟩
    rw [addToGroup]
    by_cases hf : f.label = l0
    · rw [if_pos hf]
      rw [groupsOf] at h ⊢
      by_cases hll : l = l0
      · rw [if_pos hll] at h ⊢
        exact List.mem_append_left _ h
      · rw [if_neg hll] at h ⊢
        exact h
    · rw [if_neg hf]
      rw [groupsOf] at h ⊢
      by_cases hll : l = l0
      · rw [if_pos hll] at h ⊢
        exact h
      · rw [if_neg hll] at h ⊢
        exact ih f x l h

lemma mem_groupsOf_foldl :
    ∀ (entities : List Entity) (acc : List (String × List (List Char))) (e : Entity),
      e ∈ entities ∨ e.text ∈ groupsOf acc e.label →
      e.text ∈ groupsOf (entities.foldl addToGroup acc) e.label := by
  intro entities
  induction entities with
  | nil =>
    intro acc e h
    rcases h with h | h
    · simp at h
    · exact h
  | cons f rest ih =>
    intro acc e h
    rw [List.foldl_cons]
    rcases h with h | h
    · rcases List.mem_cons.mp h with h | h
      · subst h
        exact ih _ e (Or.inr (mem_groupsOf_addToGroup_self acc e))
      · exact ih _ e (Or.inl h)
    · exact ih _ e (Or.inr (groupsOf_addToGroup_mono acc f _ _ h))

/-- C7: an entity whose text does not literally occur in the source text
contributes zero occurrences and no entry of the position table (hence no
annotated span, and no error is raised - every function involved is total),
yet its text is still listed in the grouped-by-label summary and its label's
count includes it. -/
theorem C7_absent_entity (text : List Char) (entities : List Entity) (e : Entity)
    (he : e ∈ entities) (habs : occursIn e.text text = false) :
    findOccurrences text e.text = [] ∧
    (∀ s en : Nat, (s, en, e) ∉ buildPositions text entities) ∧
    e.text ∈ groupsOf (groupByLabel entities) e.label ∧
    1 ≤ countLabel entities e.label := by
  refine ⟨findOccurrences_eq_nil text e.text habs, ?_, ?_, ?_⟩
  · intro s en hmem
    have := (mem_buildPositions text entities s en e).mp hmem
    rw [findOccurrences_eq_nil text e.text habs] at this
    simp at this
  · exact mem_groupsOf_foldl entities [] e (Or.inl he)
  · rw [countLabel]
    have hf : e ∈ entities.filter (fun x => x.label == e.label) :=
      List.mem_filter.mpr ⟨he, by simp⟩
    have := List.length_pos.mpr (List.ne_nil_of_mem hf)
    omega

/-- Witness for C7: entity `"xyz"` (label `"L"`) absent from `"hello"`. -/
theorem C7_absent_entity_witness :
    findOccurrences "hello".data ("xyz".data) = [] ∧
    "xyz".data ∈ groupsOf (groupByLabel [⟨"xyz".data, "L"⟩]) "L" ∧
    1 ≤ countLabel [⟨"xyz".data, "L"⟩] "L" :=
  ⟨(C7_absent_entity "hello".data [⟨"xyz".data, "L"⟩] ⟨"xyz".data, "L"⟩
      (by decide) (by decide)).1,
    (C7_absent_entity "hello".data [⟨"xyz".data, "L"⟩] ⟨"xyz".data, "L"⟩
      (by decide) (by decide)).2.2.1,
    (C7_absent_entity "hello".data [⟨"xyz".data, "L"⟩] ⟨"xyz".data, "L"⟩
      (by decide) (by decide)).2.2.2⟩

/-! ## Empty / whitespace-only input (C8) -/

lemma wsOnly_take_drop (t : List Char) (a b : Nat) (h : wsOnly t = true) :
    wsOnly ((t.drop a).take b) = true := by
  rw [wsOnly, List.all_eq_true] at h ⊢
  intro c hc
  exact h c (List.mem_of_mem_drop (List.mem_of_mem_take hc))

lemma chunkTexts_wsOnly (text : List Char) (cs ov : Nat) (h : wsOnly text = true) :
    ∀ c ∈ chunkTexts text cs ov, wsOnly c = true := by
  intro c hc
  rw [chunkTexts] at hc
  obtain ⟨se, _, rfl⟩ := List.mem_map.mp hc
  exact wsOnly_take_drop text se.1 (se.2 - se.1) h

/-- C8: for an empty or whitespace-only input text, given that the external
extraction call returns no entities on any whitespace-only window (the model
is an external black box; spec §7 defines this behavior), `process_long_text`
returns zero entities - on both the pass-through and the chunked path - and
occurrence discovery then records zero occurrences; every function involved
is total, so no error is raised. -/
theorem C8_empty_input (model : List Char → List String → List Entity)
    (labels : List String) (cs ov : Nat) (text : List Char)
    (hw : wsOnly text = true)
    (hm : ∀ t, wsOnly t = true → model t labels = []) :
    (process_long_text model text labels cs ov).1 = [] ∧
    buildPositions text (process_long_text model text labels cs ov).1 = [] := by
  have hres : (process_long_text model text labels cs ov).1 = [] := by
    rw [process_long_text]
    by_cases hlen : text.length ≤ cs
    · rw [if_pos hlen]
      exact hm text hw
    · rw [if_neg hlen]
      rcases hct : chunkTexts text cs ov with _ | ⟨c0, rest⟩
      · rfl
      · have hall := chunkTexts_wsOnly text cs ov hw
        rw [hct] at hall
        have h0 : model c0 labels = [] := hm c0 (hall c0 (List.mem_cons_self _ _))
        have hfold : ∀ (l : List (List Char)), (∀ c ∈ l, wsOnly c = true) →
            (l.foldl (fun acc c => dedupAppend acc (model c labels)) []) = [] := by
          intro l
          induction l with
          | nil => intro _; rfl
          | cons c ctl ih =>
            intro hl
            rw [List.foldl_cons, hm c (hl c (List.mem_cons_self _ _))]
            exact ih fun x hx => hl x (List.mem_cons_of_mem _ hx)
        simp only [h0]
        exact hfold rest fun x hx => hall x (List.mem_cons_of_mem _ hx)
  refine ⟨hres, ?_⟩
  rw [hres]
  rfl

/-- Witness for C8: the whitespace-only text `"  "` on the chunked path
(`chunk_size = 1 < 2`) with a model returning no entities. -/
theorem C8_empty_input_witness :
    wsOnly ("  ".data) = true ∧
    (process_long_text (fun _ _ => ([] : List Entity)) "  ".data ["L"] 1 0).1 = [] :=
  ⟨by decide, (C8_empty_input (fun _ _ => ([] : List Entity)) ["L"] 1 0 "  ".data
    (by decide) fun _ _ => rfl).1⟩

/-! ## Style-assignment lemmas (C9) -/

lemma styleAt_mem (k : Nat) : styleAt k ∈ styles := by
  rw [styleAt]
  have hlt : k % styles.length < styles.length := Nat.mod_lt _ (by decide)
  rw [List.getD_eq_get styles "bold" hlt]
  exact List.get_mem styles _ hlt

lemma styleOf_entityStylesFrom :
    ∀ (lo : List String) (k j : Nat) (hj : j < lo.length), lo.Nodup →
      styleOf (entityStylesFrom k lo) (lo.get ⟨j, hj⟩) = styleAt (k + j) := by
  intro lo
  induction lo with
  | nil => intro k j hj _; simp at hj
  | cons l rest ih =>
    intro k j hj hnd
    rcases j with _ | j
    · show styleOf ((l, styleAt k) :: entityStylesFrom (k + 1) rest) l = styleAt (k + 0)
      rw [styleOf, if_pos rfl, Nat.add_zero]
    · have hjr : j < rest.length := by
        have := hj; simp only [List.length_cons] at this; omega
      show styleOf ((l, styleAt k) :: entityStylesFrom (k + 1) rest)
        (rest.get ⟨j, hjr⟩) = styleAt (k + (j + 1))
      have hl : l ∉ rest := (List.nodup_cons.mp hnd).1
      have hne : rest.get ⟨j, hjr⟩ ≠ l := by
        intro heq
        exact hl (heq ▸ List.get_mem rest j hjr)
      rw [styleOf, if_neg hne]
      have harith : k + (j + 1) = (k + 1) + j := by omega
      rw [harith]
      exact ih (k + 1) j hjr (List.nodup_cons.mp hnd).2

/-- C9: the palette has 11 ≥ 7 pairwise-distinct styles; the j-th distinct
label in the label iteration order is assigned the style at index j modulo
the palette size; any two distinct labels among the first palette-size many
receive distinct styles; and every label - also beyond the palette size -
receives a style from the palette (no error). -/
theorem C9_style_assignment (lo : List String) (hnd : lo.Nodup) :
    (7 ≤ styles.length ∧ styles.Nodup) ∧
    (∀ j (hj : j < lo.length),
      styleOf (entityStyles lo) (lo.get ⟨j, hj⟩) = styleAt j ∧
      styleOf (entityStyles lo) (lo.get ⟨j, hj⟩) ∈ styles) ∧
    (∀ i j (hi : i < lo.length) (hj : j < lo.length), i < j → j < styles.length →
      styleOf (entityStyles lo) (lo.get ⟨i, hi⟩) ≠
        styleOf (entityStyles lo) (lo.get ⟨j, hj⟩)) := by
  have hlook : ∀ j (hj : j < lo.length),
      styleOf (entityStyles lo) (lo.get ⟨j, hj⟩) = styleAt j := by
    intro j hj
    have := styleOf_entityStylesFrom lo 0 j hj hnd
    rw [Nat.zero_add] at this
    exact this
  refine ⟨⟨by decide, by decide⟩, ?_, ?_⟩
  · intro j hj
    exact ⟨hlook j hj, by rw [hlook j hj]; exact styleAt_mem j⟩
  · intro i j hi hj hij hjlt
    rw [hlook i hi, hlook j hj, styleAt, styleAt]
    have hi11 : i % styles.length = i := Nat.mod_eq_of_lt (by omega)
    have hj11 : j % styles.length = j := Nat.mod_eq_of_lt hjlt
    rw [hi11, hj11]
    rw [List.getD_eq_get styles "bold" (by omega : i < styles.length),
      List.getD_eq_get styles "bold" hjlt]
    intro heq
    have hnds : styles.Nodup := by decide
    have := (List.Nodup.get_inj_iff hnds).mp heq
    rw [Fin.mk.injEq] at this
    omega

/-- Witness for C9 with the two-label order `["person", "organization"]`. -/
theorem C9_style_assignment_witness :
    (7 ≤ styles.length ∧ styles.Nodup) ∧
    styleOf (entityStyles ["person", "organization"])
      (["person", "organization"].get ⟨1, by decide⟩) = styleAt 1 :=
  ⟨(C9_style_assignment ["person", "organization"] (by decide)).1,
    ((C9_style_assignment ["person", "organization"] (by decide)).2.1 1 (by decide)).1⟩

/-! ## Sorted-keys lemmas -/

lemma insertKey_head (l : List Nat) (a : Nat) :
    (insertKey a l).head? = some a ∨ (insertKey a l).head? = l.head? := by
  cases l with
  | nil => left; rfl
  | cons y ys =>
    rw [insertKey]
    by_cases h1 : a < y
    · rw [if_pos h1]; left; rfl
    · rw [if_neg h1]
      by_cases h2 : a = y
      · rw [if_pos h2]; right; rfl
      · rw [if_neg h2]; right; rfl

lemma chain_insertKey : ∀ (l : List Nat) (a : Nat),
    List.Chain' (· < ·) l → List.Chain' (· < ·) (insertKey a l) := by
  intro l
  induction l with
  | nil => intro a _; simp [insertKey]
  | cons y ys ih =>
    intro a hc
    rw [insertKey]
    by_cases h1 : a < y
    · rw [if_pos h1]
      exact List.chain'_cons.mpr ⟨h1, hc⟩
    · rw [if_neg h1]
      by_cases h2 : a = y
      · rw [if_pos h2]; exact hc
      · rw [if_neg h2]
        have hcc := List.chain'_cons'.mp hc
        refine List.chain'_cons'.mpr ⟨?_, ih a hcc.2⟩
        intro b hb
        rw [Option.mem_def] at hb
        rcases insertKey_head ys a with h | h
        · have : some a = some b := h ▸ hb
          injection this with hab
          omega
        · exact hcc.1 b (by rw [Option.mem_def, ← h]; exact hb)

lemma mem_insertKey : ∀ (l : List Nat) (a x : Nat),
    x ∈ insertKey a l ↔ x = a ∨ x ∈ l := by
  intro l
  induction l with
  | nil => intro a x; simp [insertKey]
  | cons y ys ih =>
    intro a x
    rw [insertKey]
    by_cases h1 : a < y
    · rw [if_pos h1]; simp [List.mem_cons]
    · rw [if_neg h1]
      by_cases h2 : a = y
      · rw [if_pos h2]; subst h2; simp [List.mem_cons]
      · rw [if_neg h2]; simp [List.mem_cons, ih]; tauto

lemma sortedKeys_chain (flat : List (Nat × Nat × Entity)) :
    List.Chain' (· < ·) (sortedKeys flat) := by
  rw [sortedKeys]
  have h : ∀ (fl : List (Nat × Nat × Entity)) (acc : List Nat),
      List.Chain' (· < ·) acc →
      List.Chain' (· < ·) (fl.foldl (fun acc p => insertKey p.1 acc) acc) := by
    intro fl
    induction fl with
    | nil => intro acc hacc; exact hacc
    | cons p ps ih => intro acc hacc; exact ih _ (chain_insertKey acc p.1 hacc)
  exact h flat [] (by simp)

lemma mem_sortedKeys (flat : List (Nat × Nat × Entity)) (s : Nat) :
    s ∈ sortedKeys flat ↔ ∃ p ∈ flat, p.1 = s := by
  rw [sortedKeys]
  have h : ∀ (fl : List (Nat × Nat × Entity)) (acc : List Nat),
      s ∈ fl.foldl (fun acc p => insertKey p.1 acc) acc ↔
        (∃ p ∈ fl, p.1 = s) ∨ s ∈ acc := by
    intro fl
    induction fl with
    | nil => intro acc; simp
    | cons p ps ih =>
      intro acc
      rw [List.foldl_cons, ih, mem_insertKey]
      simp only [List.mem_cons]
      constructor
      · rintro (⟨q, hq, hqs⟩ | (h | h))
        · exact Or.inl ⟨q, Or.inr hq, hqs⟩
        · exact Or.inl ⟨p, Or.inl rfl, h.symm⟩
        · exact Or.inr h
      · rintro (⟨q, hq | hq, hqs⟩ | h)
        · subst hq; exact Or.inr (Or.inl hqs.symm)
        · exact Or.inl ⟨q, hq, hqs⟩
        · exact Or.inr (Or.inr h)
  rw [h flat []]
  simp

lemma mem_bucketAt (flat : List (Nat × Nat × Entity)) (s : Nat) (q : Nat × Entity) :
    q ∈ bucketAt flat s ↔ (s, q) ∈ flat := by
  rw [bucketAt]
  constructor
  · intro h
    obtain ⟨⟨p1, p2⟩, hp, rfl⟩ := List.mem_map.mp h
    have hf := List.mem_filter.mp hp
    have heq : p1 = s := by simpa using hf.2
    subst heq
    exact hf.1
  · intro h
    exact List.mem_map.mpr ⟨(s, q), List.mem_filter.mpr ⟨h, by simp⟩, rfl⟩

/-! ## Longest-match selection lemmas -/

lemma maxBucket_fold_spec : ∀ (bs : List (Nat × Entity)) (b : Nat × Entity),
    (bs.foldl (fun best p => if best.1 < p.1 then p else best) b) ∈ b :: bs ∧
    b.1 ≤ (bs.foldl (fun best p => if best.1 < p.1 then p else best) b).1 ∧
    ∀ q ∈ bs, q.1 ≤ (bs.foldl (fun best p => if best.1 < p.1 then p else best) b).1 := by
  intro bs
  induction bs with
  | nil => intro b; exact ⟨List.mem_cons_self _ _, Nat.le_refl _, by simp⟩
  | cons p ps ih =>
    intro b
    rw [List.foldl_cons]
    by_cases h : b.1 < p.1
    · rw [if_pos h]
      have hs := ih p
      refine ⟨List.mem_cons_of_mem b hs.1, Nat.le_trans (Nat.le_of_lt h) hs.2.1, ?_⟩
      intro q hq
      rcases List.mem_cons.mp hq with h1 | h1
      · subst h1; exact hs.2.1
      · exact hs.2.2 q h1
    · rw [if_neg h]
      have hs := ih b
      refine ⟨?_, hs.2.1, ?_⟩
      · rcases List.mem_cons.mp hs.1 with h1 | h1
        · rw [h1]; exact List.mem_cons_self _ _
        · exact List.mem_cons_of_mem _ (List.mem_cons_of_mem _ h1)
      · intro q hq
        rcases List.mem_cons.mp hq with h1 | h1
        · subst h1
          have := hs.2.1
          omega
        · exact hs.2.2 q h1

lemma maxBucket_some (l : List (Nat × Entity)) (hl : l ≠ []) :
    ∃ p, maxBucket l = some p ∧ p ∈ l ∧ ∀ q ∈ l, q.1 ≤ p.1 := by
  cases l with
  | nil => exact absurd rfl hl
  | cons b bs =>
    have hs := maxBucket_fold_spec bs b
    refine ⟨_, rfl, hs.1, ?_⟩
    intro q hq
    rcases List.mem_cons.mp hq with h1 | h1
    · subst h1; exact hs.2.1
    · exact hs.2.2 q h1

/-- Every start offset present in the position table has a nonempty bucket;
the selected occurrence is some bucket member with maximal end offset, and
its span is well-formed (`s ≤ end`, by soundness of occurrence discovery). -/
lemma key_bucket_some (text : List Char) (entities : List Entity) (s : Nat)
    (hs : s ∈ sortedKeys (buildPositions text entities)) :
    ∃ p, maxBucket (bucketAt (buildPositions text entities) s) = some p ∧
      p ∈ bucketAt (buildPositions text entities) s ∧
      (∀ q ∈ bucketAt (buildPositions text entities) s, q.1 ≤ p.1) ∧
      s ≤ p.1 := by
  obtain ⟨q0, hq0, hq0s⟩ := (mem_sortedKeys _ s).mp hs
  have hb : q0.2 ∈ bucketAt (buildPositions text entities) s := by
    rw [mem_bucketAt]
    have heta : (s, q0.2) = q0 := by
      rw [← hq0s]
    rw [heta]
    exact hq0
  obtain ⟨p, hmax, hmem, hmaxall⟩ :=
    maxBucket_some _ (List.ne_nil_of_mem hb)
  refine ⟨p, hmax, hmem, hmaxall, ?_⟩
  have hfl : (s, p.1, p.2) ∈ buildPositions text entities :=
    (mem_bucketAt _ s p).mp hmem
  have hocc := (mem_buildPositions text entities s p.1 p.2).mp hfl
  have hsound := findOccAux_sound text p.2.text (text.length + 1) 0 (s, p.1) hocc.2
  have := hsound.2.1
  simp only at this
  omega


/-! ## Rendering lemmas -/

lemma renderedText_append (a b : List (List Char × Option String)) :
    renderedText (a ++ b) = renderedText a ++ renderedText b := by
  induction a with
  | nil => simp [renderedText]
  | cons f fs ih =>
    simp only [List.cons_append, renderedText, List.foldr_cons] at ih ⊢
    rw [ih, List.append_assoc]

lemma renderedText_cons (f : List Char × Option String)
    (l : List (List Char × Option String)) :
    renderedText (f :: l) = f.1 ++ renderedText l := rfl

lemma take_drop_segment (text : List Char) (a b c : Nat) (hab : a ≤ b) (hbc : b ≤ c) :
    (text.drop a).take (b - a) ++ (text.drop b).take (c - b) =
      (text.drop a).take (c - a) := by
  have h1 : c - a = (b - a) + (c - b) := by omega
  rw [h1, List.take_add]
  congr 1
  rw [List.drop_drop]
  have h2 : a + (b - a) = b := by omega
  rw [h2]

/-- The fragment-emission loop renders exactly the text slice from the
incoming `last_end` to the final `last_end`, provided every walked key has a
selected occurrence ending at or after it, consecutive selected spans are
disjoint in order, and the incoming `last_end` is at or before the first
key. -/
lemma renderAux_concat (text : List Char) (flat : List (Nat × Nat × Entity))
    (estyles : List (String × String)) :
    ∀ (ks : List Nat) (le : Nat),
      (∀ s ∈ ks, ∃ p, maxBucket (bucketAt flat s) = some p ∧ s ≤ p.1) →
      List.Chain' (fun a b => spanEnd flat a ≤ b) ks →
      (∀ s ∈ ks.head?, le ≤ s) →
      renderedText (renderAux text flat estyles ks le).1 =
        (text.drop le).take ((renderAux text flat estyles ks le).2 - le) ∧
      le ≤ (renderAux text flat estyles ks le).2 := by
  intro ks
  induction ks with
  | nil =>
    intro le _ _ _
    exact ⟨by simp [renderAux, renderedText], Nat.le_refl _⟩
  | cons s rest ih =>
    intro le hb hchain hfirst
    obtain ⟨p, hmax, hsp⟩ := hb s (List.mem_cons_self _ _)
    have hle_s : le ≤ s := hfirst s rfl
    have hspan : spanEnd flat s = p.1 := by rw [spanEnd, hmax]
    have hcc := List.chain'_cons'.mp hchain
    have hrec := ih p.1
      (fun t ht => hb t (List.mem_cons_of_mem _ ht))
      hcc.2
      (fun t ht => by
        have h := hcc.1 t ht
        rw [hspan] at h
        exact h)
    simp only [renderAux, hmax]
    refine ⟨?_, by omega⟩
    rw [renderedText_append, renderedText_cons, hrec.1]
    have hseg1 : (text.drop s).take (p.1 - s) ++
        (text.drop p.1).take ((renderAux text flat estyles rest p.1).2 - p.1) =
        (text.drop s).take ((renderAux text flat estyles rest p.1).2 - s) :=
      take_drop_segment text s p.1 _ hsp hrec.2
    rw [hseg1]
    by_cases hgap : le < s
    · rw [if_pos hgap]
      have h0 : renderedText [((text.drop le).take (s - le), (none : Option String))] =
          (text.drop le).take (s - le) := by
        simp [renderedText]
      rw [h0]
      exact take_drop_segment text le s _ hle_s (by omega)
    · rw [if_neg hgap]
      have hle : le = s := by omega
      rw [hle]
      simp [renderedText]

lemma filterMap_eq_map_of {α β : Type} (f : α → Option β) (g : α → β) :
    ∀ (l : List α), (∀ x ∈ l, f x = some (g x)) → l.filterMap f = l.map g := by
  intro l
  induction l with
  | nil => intro _; rfl
  | cons x xs ih =>
    intro h
    rw [List.filterMap_cons, h x (List.mem_cons_self _ _), List.map_cons,
      ih fun y hy => h y (List.mem_cons_of_mem _ hy)]

lemma countStyled_append (a b : List (List Char × Option String)) :
    countStyled (a ++ b) = countStyled a + countStyled b := by
  rw [countStyled, countStyled, countStyled, List.filter_append, List.length_append]

lemma countStyled_none_singleton (cond : Prop) [Decidable cond] (x : List Char) :
    countStyled (if cond then [(x, (none : Option String))] else []) = 0 := by
  split <;> simp [countStyled]

/-- The fragment-emission loop emits exactly one styled fragment per walked
key (the gap fragments and the trailing fragment are unstyled). -/
lemma renderAux_count (text : List Char) (flat : List (Nat × Nat × Entity))
    (estyles : List (String × String)) :
    ∀ (ks : List Nat) (le : Nat),
      (∀ s ∈ ks, ∃ p, maxBucket (bucketAt flat s) = some p) →
      countStyled (renderAux text flat estyles ks le).1 = ks.length := by
  intro ks
  induction ks with
  | nil => intro le _; simp [renderAux, countStyled]
  | cons s rest ih =>
    intro le hb
    obtain ⟨p, hmax⟩ := hb s (List.mem_cons_self _ _)
    simp only [renderAux, hmax]
    rw [countStyled_append]
    have hgap : countStyled (if le < s then
        [((text.drop le).take (s - le), (none : Option String))] else []) = 0 :=
      countStyled_none_singleton _ _
    have hcons : countStyled
        (((text.drop s).take (p.1 - s), some (styleOf estyles p.2.label)) ::
          (renderAux text flat estyles rest p.1).1) =
        1 + countStyled (renderAux text flat estyles rest p.1).1 := by
      simp [countStyled, List.filter_cons]
      omega
    rw [hgap, hcons, ih p.1 fun t ht => hb t (List.mem_cons_of_mem _ ht)]
    simp [List.length_cons]
    omega

/-- C10: whenever the occurrences kept by overlap resolution are pairwise
disjoint, the fragments emitted by the annotated rendering - gaps, styled
spans, and trailing text - concatenate to exactly the original text. -/
theorem C10_render_roundtrip (text : List Char) (entities : List Entity)
    (hd : List.Pairwise (fun a b : Nat × Nat => a.2 ≤ b.1) (keptSpans text entities)) :
    renderedText (highlight_entities_in_text text entities) = text := by
  have hkeys : ∀ s ∈ sortedKeys (buildPositions text entities),
      ∃ p, maxBucket (bucketAt (buildPositions text entities) s) = some p ∧ s ≤ p.1 := by
    intro s hs
    obtain ⟨p, h1, _, _, h4⟩ := key_bucket_some text entities s hs
    exact ⟨p, h1, h4⟩
  have hkept : keptSpans text entities =
      (sortedKeys (buildPositions text entities)).map
        (fun s => (s, spanEnd (buildPositions text entities) s)) := by
    rw [keptSpans]
    apply filterMap_eq_map_of
    intro s hs
    obtain ⟨p, h1, _⟩ := hkeys s hs
    rw [h1, spanEnd, h1]
    rfl
  have hchain : List.Chain'
      (fun a b => spanEnd (buildPositions text entities) a ≤ b)
      (sortedKeys (buildPositions text entities)) := by
    rw [hkept, List.pairwise_map] at hd
    exact List.Pairwise.chain' hd
  have hmain := renderAux_concat text (buildPositions text entities)
    (entityStyles (distinctLabels entities)) (sortedKeys (buildPositions text entities)) 0
    hkeys hchain (fun s _ => Nat.zero_le s)
  simp only [highlight_entities_in_text]
  rw [renderedText_append, hmain.1]
  simp only [List.drop_zero, Nat.sub_zero]
  by_cases hlt : (renderAux text (buildPositions text entities)
      (entityStyles (distinctLabels entities))
      (sortedKeys (buildPositions text entities)) 0).2 < text.length
  · rw [if_pos hlt]
    simp only [renderedText, List.foldr_cons, List.foldr_nil, List.append_nil]
    exact List.take_append_drop _ text
  · rw [if_neg hlt]
    simp only [renderedText, List.foldr_nil, List.append_nil]
    exact List.take_of_length_le (by omega)

/-- Witness for C10: two disjoint entities in `"ab cd"`. -/
theorem C10_render_roundtrip_witness :
    renderedText (highlight_entities_in_text "ab cd".data
      [⟨"ab".data, "X"⟩, ⟨"cd".data, "Y"⟩]) = "ab cd".data :=
  C10_render_roundtrip "ab cd".data [⟨"ab".data, "X"⟩, ⟨"cd".data, "Y"⟩] (by decide)

/-- C5: the rendering walk processes start offsets in strictly ascending
order; at each start offset the selected occurrence is a bucket member whose
end offset is maximal among all occurrences starting there; and exactly one
styled fragment is emitted per start offset (the other occurrences at that
offset are discarded). -/
theorem C5_overlap_resolution (text : List Char) (entities : List Entity) :
    List.Chain' (· < ·) (sortedKeys (buildPositions text entities)) ∧
    (∀ s ∈ sortedKeys (buildPositions text entities),
      ∃ p, maxBucket (bucketAt (buildPositions text entities) s) = some p ∧
        p ∈ bucketAt (buildPositions text entities) s ∧
        ∀ q ∈ bucketAt (buildPositions text entities) s, q.1 ≤ p.1) ∧
    countStyled (highlight_entities_in_text text entities) =
      (sortedKeys (buildPositions text entities)).length := by
  refine ⟨sortedKeys_chain _, ?_, ?_⟩
  · intro s hs
    obtain ⟨p, h1, h2, h3, _⟩ := key_bucket_some text entities s hs
    exact ⟨p, h1, h2, h3⟩
  · simp only [highlight_entities_in_text]
    rw [countStyled_append]
    rw [renderAux_count text (buildPositions text entities)
      (entityStyles (distinctLabels entities)) (sortedKeys (buildPositions text entities)) 0
      (fun s hs => by
        obtain ⟨p, h1, _⟩ := key_bucket_some text entities s hs
        exact ⟨p, h1⟩)]
    rw [countStyled_none_singleton]
    omega

/-- Witness for C5 at text `"abcab"` with entities `"ab"` and `"abc"`
(both give an occurrence at start 0; only the longer is styled). -/
theorem C5_overlap_resolution_witness :
    countStyled (highlight_entities_in_text "abcab".data
      [⟨"ab".data, "X"⟩, ⟨"abc".data, "Y"⟩]) =
    (sortedKeys (buildPositions "abcab".data
      [⟨"ab".data, "X"⟩, ⟨"abc".data, "Y"⟩])).length :=
  (C5_overlap_resolution "abcab".data [⟨"ab".data, "X"⟩, ⟨"abc".data, "Y"⟩]).2.2

/-- C2 (code behavior at the failing input): an occurrence starting strictly
inside a previously accepted longer occurrence IS visited by the render loop
of src/main.py lines 117-130 - the loop has no skip for start offsets that
`last_end` has already passed.  At text `"abcde"` with entities `"abcde"` and
`"bcd"`, the occurrence `(1, 4)` lies strictly inside the accepted `(0, 5)`,
yet the loop emits the styled fragment `"bcd"` again (and resets `last_end`
back to 4, so the trailing `"e"` is also re-emitted): the rendered characters
are `"abcdebcde"`, not the original text. -/
theorem C2_contained_span_emitted :
    highlight_entities_in_text "abcde".data [⟨"abcde".data, "A"⟩, ⟨"bcd".data, "B"⟩] =
      [("abcde".data, some "bold red"), ("bcd".data, some "bold blue"),
        ("e".data, none)] ∧
    renderedText (highlight_entities_in_text "abcde".data
      [⟨"abcde".data, "A"⟩, ⟨"bcd".data, "B"⟩]) ≠ "abcde".data := by
  exact ⟨by decide, by decide⟩
